import Mathlib

/-!
Verification of the allocation engine of `hw_generator` (`src/hw_generator/hw.py`).

The Python functions are shallowly embedded as Lean functions:

* `assign_problems` — block-replication allocator.  Python shuffles a fresh
  copy of `problems` once per block with `random.shuffle`; here the shuffle
  used for block `i` is injected as `perms i`, an arbitrary function on lists
  (theorems hypothesise that it permutes its input, matching what a shuffle
  can do).  The Python `ceil(students_n / len(problems))` raises
  `ZeroDivisionError` on an empty problem list, so the embedding returns
  `Option`, with `none` standing for the raised exception.
* `slice_pop` — the destructive front-slice helper; the mutation of its list
  argument is made explicit by returning the pair (returned slice, contents
  of the list after the call).
* `combine` / `partition_groups` / `assemble` — the three stages of
  `make_group_tables`: the `zip(*...)` transpose of the per-set allocations,
  the dict comprehension popping one slice per group, and the row-building
  comprehension (whose `group_problems[group][i]` indexing raises
  `IndexError` when out of range, hence `Option`).
* `assign_problems_st` — the same allocator over an explicit heap of list
  cells, used to state the frame property that the `problems` argument is
  never mutated (each block shuffles a fresh copy).
-/

namespace HwGen

/-- Embedding of `assign_problems(problems, students_n)`:
`n = ceil(students_n / len(problems))` blocks, block `i` being the
permuted copy `perms i problems`, concatenated and truncated to
`students_n` elements.  `none` models the `ZeroDivisionError` raised by
`ceil(students_n / 0)` when `problems` is empty. -/
def assign_problems (perms : Nat → List α → List α) (problems : List α)
    (students_n : Nat) : Option (List α) :=
  if problems.length = 0 then none
  else
    some ((((List.range ((students_n + problems.length - 1) / problems.length)).map
      (fun i => perms i problems)).flatten).take students_n)

/-- Embedding of `slice_pop(l, a, b)`.  The result is
(returned slice, contents of `l` after the destructive `del`).
`b = none` is the two-argument call: slice `l[:a]`, delete `l[:a]`. -/
def slice_pop (l : List α) (a : Nat) (b : Option Nat) : List α × List α :=
  match b with
  | none => (l.take a, l.drop a)
  | some b2 => ((l.drop a).take (b2 - a), l.take a ++ l.drop (max a b2))

/-- The partition step of `make_group_tables`: the dict comprehension
`{group: slice_pop(problems_assigned, len(students)) ...}` applied in
roster order.  Returns the per-group slices and the final (leftover)
contents of the shared list. -/
def partition_groups (combined : List β) : List Nat → List (List β) × List β
  | [] => ([], combined)
  | sz :: rest =>
    let sp := slice_pop combined sz none
    let r := partition_groups sp.2 rest
    (sp.1 :: r.1, r.2)

/-- A Python list comprehension over a fallible body: `none` as soon as
one element raises. -/
def mapOption (f : α → Option β) : List α → Option (List β)
  | [] => some []
  | x :: xs =>
    match f x with
    | none => none
    | some y =>
      match mapOption f xs with
      | none => none
      | some ys => some (y :: ys)

/-- Length of the shortest list: the length of Python `zip(*ls)`
(`zip` truncates to its shortest argument; `zip()` of nothing is empty). -/
def minLen : List (List γ) → Nat
  | [] => 0
  | [l] => l.length
  | l :: r :: rs => min l.length (minLen (r :: rs))

/-- Embedding of `list(map(list, zip(*ls)))`: the transpose, truncated to
the shortest row.  `d` is a dummy default for the (never out-of-range)
index accesses. -/
def zipStar (d : γ) (ls : List (List γ)) : List (List γ) :=
  match ls with
  | [] => []
  | _ :: _ => (List.range (minLen ls)).map (fun i => ls.map (fun l => l.getD i d))

/-- The allocation-and-transpose step of `make_group_tables` (lines
138–141): one `assign_problems` call per problem set (the shuffles for
set `j`, block `i` injected as `perms j i`), then `zip(*...)`. -/
def combine (perms : Nat → Nat → List γ → List γ) (problem_groups : List (List γ))
    (total : Nat) (d : γ) : Option (List (List γ)) :=
  (mapOption (fun p => assign_problems (perms p.1) p.2 total)
    problem_groups.enum).map (zipStar d)

/-- The row-assembly comprehension of `make_group_tables`:
`[(i + 1, student, *tuples[i]) for i, student in enumerate(students)]`,
with `i` the running `enumerate` index; `none` models the `IndexError`
when `tuples[i]` is out of range. -/
def assemble : Nat → List σ → List (List γ) → Option (List (Nat × σ × List γ))
  | _, [], _ => some []
  | i, s :: ss, tuples =>
    match tuples.get? i with
    | none => none
    | some t => (assemble (i + 1) ss tuples).map (fun rest => (i + 1, s, t) :: rest)

/-- `make_group_tables(groups, problem_groups)` assembled from the three
stages, over an ordered roster (association list, insertion order). -/
def make_group_tables (perms : Nat → Nat → List String → List String)
    (groups : List (String × List String)) (problem_groups : List (List String)) :
    Option (List (String × List (Nat × String × List String))) :=
  let total := (groups.map (fun g => g.2.length)).sum
  match combine perms problem_groups total "" with
  | none => none
  | some problems_assigned =>
    let gp := (partition_groups problems_assigned
      (groups.map (fun g => g.2.length))).1
    mapOption (fun p => (assemble 0 p.1.2 p.2).map (fun rows => (p.1.1, rows)))
      (groups.zip gp)

/-- `ceil(m / k) * k` covers `m`. -/
lemma le_ceilDiv_mul (m k : Nat) (hk : 0 < k) : m ≤ ((m + k - 1) / k) * k := by
  have h1 := Nat.div_add_mod (m + k - 1) k
  have h2 : (m + k - 1) % k < k := Nat.mod_lt _ hk
  rw [Nat.mul_comm]
  generalize hq : (m + k - 1) / k = q at h1 ⊢
  generalize hr : (m + k - 1) % k = r at h1 h2
  generalize hK : k * q = K at h1 ⊢
  omega

/-- Length of `nb` concatenated blocks, each a length-preserving image of
`problems`. -/
lemma blocks_flatten_length (perms : Nat → List α → List α) (problems : List α)
    (nb : Nat) (hlen : ∀ i, (perms i problems).length = problems.length) :
    (((List.range nb).map (fun i => perms i problems)).flatten).length
      = nb * problems.length := by
  rw [List.length_flatten]
  have hmap : ((List.range nb).map (fun i => perms i problems)).map List.length
      = (List.range nb).map (fun _ => problems.length) := by
    rw [List.map_map]
    exact List.map_congr_left (fun i _ => hlen i)
  rw [hmap, List.map_const', List.sum_replicate, smul_eq_mul, List.length_range]

/-- Core shape of a successful allocation: it exists and has length
`students_n`, provided only that each injected shuffle preserves length. -/
lemma assign_problems_spec (perms : Nat → List α → List α) (problems : List α)
    (n : Nat) (hne : problems ≠ [])
    (hlen : ∀ i, (perms i problems).length = problems.length) :
    ∃ out, assign_problems perms problems n = some out ∧ out.length = n := by
  have hk : 0 < problems.length := List.length_pos.mpr hne
  refine ⟨_, by rw [assign_problems, if_neg (by omega)], ?_⟩
  rw [List.length_take, blocks_flatten_length perms problems _ hlen]
  have := le_ceilDiv_mul n problems.length hk
  omega

/-- C1: for non-empty `problems`, positive `count` and any per-block
permutations, `assign_problems problems count` succeeds with a list of
length exactly `count`. -/
theorem assign_problems_length (perms : Nat → List α → List α) (problems : List α)
    (count : Nat) (hne : problems ≠ []) (hpos : 0 < count)
    (hperm : ∀ i, (perms i problems).Perm problems) :
    ∃ out, assign_problems perms problems count = some out ∧ out.length = count :=
  assign_problems_spec perms problems count hne (fun i => (hperm i).length_eq)

/-- Witness for C1 at `problems = ["a", "b"]`, `count = 3`, identity shuffles. -/
theorem assign_problems_length_witness :
    (["a", "b"] : List String) ≠ [] ∧ 0 < 3 ∧
    ∃ out, assign_problems (fun _ l => l) ["a", "b"] 3 = some out ∧ out.length = 3 :=
  ⟨by decide, by decide,
    assign_problems_length (fun _ l => l) ["a", "b"] 3 (by decide) (by decide)
      (fun _ => List.Perm.refl _)⟩

/-- Occurrence counts in a truncated concatenation of blocks, each of
length `k` and containing `x` exactly once: the count `c` of `x` in the
first `m` elements satisfies `c * k ≤ m + (k - 1)` and
`m ≤ c * k + (k - 1)` (the multiplicative forms of
`floor (m / k) ≤ c ≤ ceil (m / k)`). -/
lemma count_take_flatten_mul_bounds [DecidableEq γ] (x : γ) (k : Nat) (hk : 0 < k)
    (bs : List (List γ)) :
    ∀ m : Nat, (∀ b ∈ bs, b.length = k) → (∀ b ∈ bs, b.count x = 1) →
      m ≤ bs.flatten.length →
      ((bs.flatten.take m).count x) * k ≤ m + (k - 1) ∧
      m ≤ ((bs.flatten.take m).count x) * k + (k - 1) := by
  induction bs with
  | nil =>
    intro m _ _ hm
    simp only [List.flatten_nil, List.length_nil, Nat.le_zero] at hm
    subst hm
    simp only [List.flatten_nil, List.take_nil, List.count_nil]
    omega
  | cons b bs ih =>
    intro m hlen hcnt hm
    have hbk : b.length = k := hlen b (List.mem_cons_self b bs)
    have hbc : b.count x = 1 := hcnt b (List.mem_cons_self b bs)
    rw [List.flatten_cons, List.length_append, hbk] at hm
    rw [List.flatten_cons, List.take_append_eq_append_take, List.count_append, hbk]
    by_cases hmk : m ≤ k
    · have hz : m - k = 0 := by omega
      rw [hz]
      simp only [List.take_zero, List.count_nil, Nat.add_zero]
      have hle : (b.take m).count x ≤ 1 := by
        have := (List.take_sublist m b).count_le x
        omega
      have hmk1 : m = k → (b.take m).count x = 1 := by
        intro h
        rw [h, ← hbk, List.take_length, hbc]
      have hm0 : m = 0 → (b.take m).count x = 0 := by
        intro h
        rw [h]
        simp
      rcases Nat.le_one_iff_eq_zero_or_eq_one.mp hle with h0 | h1
      · rw [h0]
        have hne : m ≠ k := by
          intro h
          rw [hmk1 h] at h0
          omega
        omega
      · rw [h1]
        have hne : m ≠ 0 := by
          intro h
          rw [hm0 h] at h1
          omega
        omega
    · have hbm : b.take m = b := List.take_of_length_le (by omega)
      rw [hbm, hbc]
      have hrec := ih (m - k) (fun b2 hb => hlen b2 (List.mem_cons_of_mem b hb))
        (fun b2 hb => hcnt b2 (List.mem_cons_of_mem b hb)) (by omega)
      rw [Nat.add_mul]
      generalize hc : (bs.flatten.take (m - k)).count x = c at hrec ⊢
      generalize hK : c * k = K at hrec ⊢
      omega

/-- C2: with duplicate-free `problems`, each problem occurs in the
allocation at least `floor (count / k)` and at most `ceil (count / k)`
times, where `k = len problems`. -/
theorem assign_problems_count_bounds [DecidableEq α] (perms : Nat → List α → List α)
    (problems : List α) (count : Nat) (x : α)
    (hnd : problems.Nodup) (hx : x ∈ problems) (hpos : 0 < count)
    (hperm : ∀ i, (perms i problems).Perm problems) :
    ∀ out, assign_problems perms problems count = some out →
      count / problems.length ≤ out.count x ∧
      out.count x ≤ (count + problems.length - 1) / problems.length := by
  intro out hout
  have hk : 0 < problems.length := List.length_pos.mpr (List.ne_nil_of_mem hx)
  rw [assign_problems, if_neg (by omega)] at hout
  have hout2 := Option.some.inj hout
  subst hout2
  have hlen : ∀ b ∈ (List.range ((count + problems.length - 1) / problems.length)).map
      (fun i => perms i problems), b.length = problems.length := by
    intro b hb
    rcases List.mem_map.mp hb with ⟨i, _, rfl⟩
    exact (hperm i).length_eq
  have hcnt : ∀ b ∈ (List.range ((count + problems.length - 1) / problems.length)).map
      (fun i => perms i problems), b.count x = 1 := by
    intro b hb
    rcases List.mem_map.mp hb with ⟨i, _, rfl⟩
    rw [(hperm i).count_eq x]
    exact List.count_eq_one_of_mem hnd hx
  have hm : count ≤ (((List.range ((count + problems.length - 1) / problems.length)).map
      (fun i => perms i problems)).flatten).length := by
    rw [blocks_flatten_length perms problems _ (fun i => (hperm i).length_eq)]
    have := le_ceilDiv_mul count problems.length hk
    omega
  have hbounds := count_take_flatten_mul_bounds x problems.length hk
    ((List.range ((count + problems.length - 1) / problems.length)).map
      (fun i => perms i problems)) count hlen hcnt hm
  constructor
  · have h2 : count < ((((List.range ((count + problems.length - 1) / problems.length)).map
        (fun i => perms i problems)).flatten.take count).count x + 1) * problems.length := by
      rw [Nat.add_mul, Nat.one_mul]
      generalize hK : (((List.range ((count + problems.length - 1) / problems.length)).map
        (fun i => perms i problems)).flatten.take count).count x * problems.length = K at hbounds ⊢
      omega
    have h3 := (Nat.div_lt_iff_lt_mul hk).mpr h2
    omega
  · rw [Nat.le_div_iff_mul_le hk]
    generalize hK : (((List.range ((count + problems.length - 1) / problems.length)).map
      (fun i => perms i problems)).flatten.take count).count x * problems.length = K at hbounds ⊢
    omega

/-- Witness for C2 at `problems = ["a", "b"]`, `count = 3`, `x = "a"`,
identity shuffles: the allocation is `["a", "b", "a"]` and `"a"` occurs
twice, between `floor (3 / 2) = 1` and `ceil (3 / 2) = 2`. -/
theorem assign_problems_count_bounds_witness :
    (["a", "b"] : List String).Nodup ∧ "a" ∈ (["a", "b"] : List String) ∧ 0 < 3 ∧
    (3 / (["a", "b"] : List String).length ≤ (["a", "b", "a"] : List String).count "a" ∧
      (["a", "b", "a"] : List String).count "a" ≤
        (3 + (["a", "b"] : List String).length - 1) / (["a", "b"] : List String).length) :=
  ⟨by decide, by decide, by decide,
    assign_problems_count_bounds (fun _ l => l) ["a", "b"] 3 "a" (by decide) (by decide)
      (by decide) (fun _ => List.Perm.refl _) ["a", "b", "a"] rfl⟩

/-- Counterexample to C2 as stated: for `problems = [0, 0]` (labels may
repeat within a problem set) and `count = 3`, with identity shuffles
(a legitimate permutation choice), the allocation is `[0, 0, 0]` and the
element `0` occurs 3 times, exceeding `ceil (3 / 2) = 2`. -/
theorem assign_problems_count_bounds_cex :
    assign_problems (fun _ (l : List Nat) => l) [0, 0] 3 = some [0, 0, 0] ∧
    ¬ (([0, 0, 0] : List Nat).count 0 ≤ (3 + 2 - 1) / 2) :=
  ⟨rfl, by decide⟩

/-- C8: for `0 < count < len problems` and duplicate-free `problems`, the
allocation is the truncated single shuffled block
`(perms 0 problems).take count`, and it has no repeated element. -/
theorem assign_problems_small_count (perms : Nat → List α → List α)
    (problems : List α) (count : Nat)
    (hnd : problems.Nodup) (hpos : 0 < count) (hlt : count < problems.length)
    (hperm : ∀ i, (perms i problems).Perm problems) :
    assign_problems perms problems count = some ((perms 0 problems).take count) ∧
    ((perms 0 problems).take count).Nodup := by
  constructor
  · rw [assign_problems, if_neg (by omega)]
    have hone : (count + problems.length - 1) / problems.length = 1 := by
      apply Nat.div_eq_of_lt_le
      · omega
      · omega
    rw [hone]
    simp [List.range_succ]
  · exact List.Nodup.sublist (List.take_sublist count (perms 0 problems))
      (((hperm 0).nodup_iff).mpr hnd)

/-- Witness for C8 at `problems = ["a", "b", "c"]`, `count = 2`, identity
shuffles. -/
theorem assign_problems_small_count_witness :
    (["a", "b", "c"] : List String).Nodup ∧ 0 < 2 ∧
    2 < (["a", "b", "c"] : List String).length ∧
    (assign_problems (fun _ l => l) ["a", "b", "c"] 2 =
        some (((fun _ (l : List String) => l) 0 ["a", "b", "c"]).take 2) ∧
      (((fun _ (l : List String) => l) 0 ["a", "b", "c"]).take 2).Nodup) :=
  ⟨by decide, by decide, by decide,
    assign_problems_small_count (fun _ l => l) ["a", "b", "c"] 2 (by decide) (by decide)
      (by decide) (fun _ => List.Perm.refl _)⟩

/-- Counterexample to C8 as stated: for `problems = [0, 0, 1]` (labels may
repeat) and `count = 2 < 3`, with identity shuffles, the output `[0, 0]`
is a truncated single block but is not duplicate-free. -/
theorem assign_problems_small_count_cex :
    assign_problems (fun _ (l : List Nat) => l) [0, 0, 1] 2 = some [0, 0] ∧
    ¬ ([0, 0] : List Nat).Nodup :=
  ⟨rfl, by decide⟩

/-- C9: the two-argument `slice_pop(l, a)` returns the prefix `l[:a]` of
the original list, leaves the matching suffix in `l`, and the returned
slice followed by the post-call contents is the original list. -/
theorem slice_pop_two_arg (l : List α) (a : Nat) :
    (slice_pop l a none).1 = l.take a ∧
    (slice_pop l a none).2 = l.drop a ∧
    (slice_pop l a none).1 ++ (slice_pop l a none).2 = l :=
  ⟨rfl, rfl, List.take_append_drop a l⟩

/-- Unfolding of `partition_groups` on an empty roster. -/
lemma partition_groups_nil (combined : List β) :
    partition_groups combined ([] : List Nat) = ([], combined) := rfl

/-- Unfolding of `partition_groups` on a roster with a first group of
size `sz`: that group takes `combined[:sz]`, the rest continue on
`combined[sz:]`. -/
lemma partition_groups_cons (combined : List β) (sz : Nat) (rest : List Nat) :
    partition_groups combined (sz :: rest) =
      ((combined.take sz) :: (partition_groups (combined.drop sz) rest).1,
        (partition_groups (combined.drop sz) rest).2) := rfl

/-- When the sizes exhaust `combined`, the slices concatenate back to
`combined` and their lengths sum to `len combined`. -/
lemma partition_groups_flatten (sizes : List Nat) :
    ∀ combined : List β, sizes.sum = combined.length →
      (partition_groups combined sizes).1.flatten = combined ∧
      ((partition_groups combined sizes).1.map List.length).sum = combined.length := by
  induction sizes with
  | nil =>
    intro combined h
    simp only [List.sum_nil] at h
    have hc : combined = [] := List.length_eq_zero.mp h.symm
    subst hc
    simp [partition_groups_nil]
  | cons sz rest ih =>
    intro combined h
    simp only [List.sum_cons] at h
    have hlen : (combined.drop sz).length = combined.length - sz :=
      List.length_drop sz combined
    have hrec := ih (combined.drop sz) (by omega)
    rw [partition_groups_cons]
    constructor
    · rw [List.flatten_cons, hrec.1, List.take_append_drop]
    · rw [List.map_cons, List.sum_cons, hrec.2, List.length_take]
      omega

/-- C3: the partition step is length- and order-preserving: when the
roster group sizes sum to `len combined`, concatenating the per-group
slices in roster order reproduces `combined`, and the slice lengths sum
to `len combined`. -/
theorem partition_length_order_preserving (combined : List β)
    (roster : List (String × List String))
    (h : (roster.map (fun g => g.2.length)).sum = combined.length) :
    (partition_groups combined (roster.map (fun g => g.2.length))).1.flatten
        = combined ∧
    ((partition_groups combined (roster.map (fun g => g.2.length))).1.map
        List.length).sum = combined.length :=
  partition_groups_flatten (roster.map (fun g => g.2.length)) combined h

/-- Witness for C3 on the specification example: roster
`{"A": ["X", "Y"], "B": ["Z"]}` and combined list `["p2", "p1", "p1"]`. -/
theorem partition_length_order_preserving_witness :
    (([("A", ["X", "Y"]), ("B", ["Z"])].map (fun g => g.2.length)).sum
        = (["p2", "p1", "p1"] : List String).length) ∧
    ((partition_groups (["p2", "p1", "p1"] : List String)
        ([("A", ["X", "Y"]), ("B", ["Z"])].map (fun g => g.2.length))).1.flatten
        = ["p2", "p1", "p1"] ∧
      ((partition_groups (["p2", "p1", "p1"] : List String)
          ([("A", ["X", "Y"]), ("B", ["Z"])].map (fun g => g.2.length))).1.map
          List.length).sum = (["p2", "p1", "p1"] : List String).length) :=
  ⟨by decide, partition_length_order_preserving ["p2", "p1", "p1"]
    [("A", ["X", "Y"]), ("B", ["Z"])] (by decide)⟩

/-- Counterexample to C5 as stated: with one group of two students and a
combined list of length 1 (a mismatch: 2 ≠ 1), the partition step does
not fail at all — no `AllocationMismatchError` exists in the code and no
check is performed — it silently returns a truncated slice of length 1
for the size-2 group. -/
theorem partition_mismatch_cex :
    ¬ ((([("G", ["s1", "s2"])].map (fun g => g.2.length)).sum : Nat)
        = (["p"] : List String).length) ∧
    partition_groups (["p"] : List String)
        ([("G", ["s1", "s2"])].map (fun g => g.2.length)) = ([["p"]], []) ∧
    ¬ ((([["p"]] : List (List String)).map List.length)
        = [("G", ["s1", "s2"])].map (fun g => g.2.length)) :=
  ⟨by decide, by decide, by decide⟩

/-- C5 amended: the partition step performs no defensive length check and
never signals a mismatch: on every input (matched or not) it returns
normally, with one slice per group, and the slices followed by the
leftover remainder are exactly `combined` (mismatches are absorbed
silently by truncated slices or a non-empty remainder). -/
theorem partition_no_mismatch_check (combined : List β) (sizes : List Nat) :
    (partition_groups combined sizes).1.length = sizes.length ∧
    (partition_groups combined sizes).1.flatten
      ++ (partition_groups combined sizes).2 = combined := by
  induction sizes generalizing combined with
  | nil => simp [partition_groups_nil]
  | cons sz rest ih =>
    rw [partition_groups_cons]
    constructor
    · simp [(ih (combined.drop sz)).1]
    · rw [List.flatten_cons, List.append_assoc, (ih (combined.drop sz)).2,
        List.take_append_drop]

/-- `assign_problems` raises (the `ZeroDivisionError` of
`ceil(students_n / 0)`) exactly when its problem list is empty. -/
lemma assign_problems_eq_none_iff (perms : Nat → List α → List α)
    (problems : List α) (n : Nat) :
    assign_problems perms problems n = none ↔ problems = [] := by
  constructor
  · intro h
    rw [assign_problems] at h
    by_cases hl : problems.length = 0
    · exact List.length_eq_zero.mp hl
    · rw [if_neg hl] at h
      exact absurd h (by simp)
  · intro h
    subst h
    rfl

/-- The per-set allocation pass of the combiner fails exactly when some
problem set is empty (independently of the enumeration offset). -/
lemma combine_alloc_none_iff (perms : Nat → Nat → List γ → List γ) (total : Nat) :
    ∀ (pg : List (List γ)) (j : Nat),
      mapOption (fun p => assign_problems (perms p.1) p.2 total)
          (List.enumFrom j pg) = none
        ↔ [] ∈ pg := by
  intro pg
  induction pg with
  | nil =>
    intro j
    simp [List.enumFrom, mapOption]
  | cons ps rest ih =>
    intro j
    cases hx : assign_problems (perms j) ps total with
    | none =>
      have hps : ps = [] := (assign_problems_eq_none_iff (perms j) ps total).mp hx
      subst hps
      simp [List.enumFrom, mapOption, hx]
    | some y =>
      have hps : ps ≠ [] := by
        intro hc
        rw [(assign_problems_eq_none_iff (perms j) ps total).mpr hc] at hx
        exact Option.noConfusion hx
      cases hrest : mapOption (fun p => assign_problems (perms p.1) p.2 total)
          (List.enumFrom (j + 1) rest) with
      | none =>
        have h1 := (ih (j + 1)).mp hrest
        simp [List.enumFrom, mapOption, hx, hrest, h1]
      | some ys =>
        have h1 : ¬ ([] ∈ rest) := fun hc => by
          rw [(ih (j + 1)).mpr hc] at hrest
          exact Option.noConfusion hrest
        simp [List.enumFrom, mapOption, hx, hrest, h1, Ne.symm hps]

/-- Counterexample to C4 as stated: with an empty list of problem sets
and a positive total (one student), the allocation step of
`make_group_tables` does not fail at all: `zip(*[])` is empty and the
step completes normally with an empty combined list.  (The code defines
no `ConfigurationError`; the only failure it can produce here is a
`ZeroDivisionError` from an empty individual problem set.) -/
theorem combine_error_cex :
    combine (fun _ _ (l : List String) => l) ([] : List (List String)) 1 "" = some [] :=
  rfl

/-- C4 amended: the allocation step inside `make_group_tables` fails
(with an uncaught `ZeroDivisionError`; no `ConfigurationError` class
exists) exactly when some individual problem set is empty.  An empty
problem-set list or a zero total completes normally; a negative total
cannot occur since the total is a sum of group sizes. -/
theorem combine_error_iff (perms : Nat → Nat → List γ → List γ)
    (problem_groups : List (List γ)) (total : Nat) (d : γ) :
    combine perms problem_groups total d = none ↔ [] ∈ problem_groups := by
  constructor
  · intro h
    rw [combine] at h
    cases hm : mapOption (fun p => assign_problems (perms p.1) p.2 total)
        problem_groups.enum with
    | none => exact (combine_alloc_none_iff perms total problem_groups 0).mp hm
    | some allocs =>
      rw [hm] at h
      exact absurd h (by simp)
  · intro h
    rw [combine,
      show (mapOption (fun p => assign_problems (perms p.1) p.2 total)
          problem_groups.enum = none) from
        (combine_alloc_none_iff perms total problem_groups 0).mpr h]
    rfl

/-- When every problem set is non-empty and the injected shuffles are
permutations, the per-set allocation pass succeeds, yielding one list of
length `total` per problem set, in input order. -/
lemma combine_allocs_spec (perms : Nat → Nat → List γ → List γ) (total : Nat) :
    ∀ (pg : List (List γ)) (j : Nat), (∀ ps ∈ pg, ps ≠ []) →
      (∀ a i (l : List γ), (perms a i l).Perm l) →
      ∃ allocs, mapOption (fun p => assign_problems (perms p.1) p.2 total)
          (List.enumFrom j pg) = some allocs ∧
        allocs.length = pg.length ∧ ∀ l ∈ allocs, l.length = total := by
  intro pg
  induction pg with
  | nil =>
    intro j _ _
    exact ⟨[], rfl, rfl, by simp⟩
  | cons ps rest ih =>
    intro j hne hp
    rcases assign_problems_spec (perms j) ps total (hne ps (List.mem_cons_self ps rest))
      (fun i => (hp j i ps).length_eq) with ⟨out, hout, hlen⟩
    rcases ih (j + 1) (fun q hq => hne q (List.mem_cons_of_mem ps hq)) hp with
      ⟨allocs, hallocs, hlena, hforall⟩
    refine ⟨out :: allocs, ?_, by simp [hlena], ?_⟩
    · simp [List.enumFrom, mapOption, hout, hallocs]
    · intro l hl
      rcases List.mem_cons.mp hl with rfl | hl2
      · exact hlen
      · exact hforall l hl2

/-- `minLen` of a non-empty family of lists of equal length `t` is `t`. -/
lemma minLen_const (t : Nat) :
    ∀ ls : List (List γ), ls ≠ [] → (∀ l ∈ ls, l.length = t) → minLen ls = t := by
  intro ls
  induction ls with
  | nil => intro h _; exact absurd rfl h
  | cons l rest ih =>
    intro _ hall
    cases rest with
    | nil => exact hall l (List.mem_cons_self l [])
    | cons r rs =>
      rw [minLen, ih (by simp) (fun q hq => hall q (List.mem_cons_of_mem l hq)),
        hall l (List.mem_cons_self l (r :: rs))]
      exact Nat.min_self t

/-- Shape of the `zip(*allocs)` transpose when all rows have length `t`:
`t` output rows, each of arity `len allocs`, the `i`-th output row being
the `i`-th column of `allocs`. -/
lemma zipStar_spec (d : γ) (ls : List (List γ)) (t : Nat) (hne : ls ≠ [])
    (hall : ∀ l ∈ ls, l.length = t) :
    (zipStar d ls).length = t ∧
    (∀ row ∈ zipStar d ls, row.length = ls.length) ∧
    ∀ i, i < t → (zipStar d ls).getD i [] = ls.map (fun l => l.getD i d) := by
  have hmin : minLen ls = t := minLen_const t ls hne hall
  cases ls with
  | nil => exact absurd rfl hne
  | cons l rest =>
    rw [zipStar, hmin]
    refine ⟨by simp, ?_, ?_⟩
    · intro row hrow
      rcases List.mem_map.mp hrow with ⟨i, _, rfl⟩
      simp
    · intro i hi
      rw [List.getD_eq_getElem?_getD, List.getElem?_map, List.getElem?_range hi]
      rfl

/-- Counterexample to C7 as stated: with an empty sequence of problem
sets and `total = 2`, the combiner completes but its output is the empty
list, of length 0, not `total`. -/
theorem combine_output_shape_cex :
    combine (fun _ _ (l : List String) => l) ([] : List (List String)) 2 "" = some []
      ∧ ¬ (([] : List (List String)).length = 2) :=
  ⟨rfl, by decide⟩

/-- C7 amended: for a non-empty sequence of non-empty problem sets and
any per-block permutations, the combiner succeeds; its output has length
`total`, every output row has arity `len problem_groups`, and row `i` is
the tuple of the `i`-th elements of the per-set allocations, in
problem-set input order. -/
theorem combine_output_shape (perms : Nat → Nat → List γ → List γ)
    (problem_groups : List (List γ)) (total : Nat) (d : γ)
    (hne : problem_groups ≠ []) (hsets : ∀ ps ∈ problem_groups, ps ≠ [])
    (hperm : ∀ a i (l : List γ), (perms a i l).Perm l) :
    ∃ allocs out,
      mapOption (fun p => assign_problems (perms p.1) p.2 total)
        problem_groups.enum = some allocs ∧
      combine perms problem_groups total d = some out ∧
      out.length = total ∧
      (∀ row ∈ out, row.length = problem_groups.length) ∧
      ∀ i, i < total → out.getD i [] = allocs.map (fun l => l.getD i d) := by
  rcases combine_allocs_spec perms total problem_groups 0 hsets hperm with
    ⟨allocs, hallocs, hlena, hall⟩
  have hane : allocs ≠ [] := by
    intro hc
    rw [hc] at hlena
    exact hne (List.length_eq_zero.mp hlena.symm)
  rcases zipStar_spec d allocs total hane hall with ⟨hlen, hrows, hget⟩
  refine ⟨allocs, zipStar d allocs, hallocs, ?_, hlen, ?_, hget⟩
  · rw [combine, show (mapOption (fun p => assign_problems (perms p.1) p.2 total)
      problem_groups.enum = some allocs) from hallocs]
    rfl
  · intro row hrow
    rw [hrows row hrow, hlena]

/-- Witness for C7 (amended) at one problem set `["p", "q"]` and
`total = 2`, identity shuffles: the allocation is `["p", "q"]` and the
combined output is `[["p"], ["q"]]`. -/
theorem combine_output_shape_witness :
    ([["p", "q"]] : List (List String)) ≠ [] ∧
    (∃ allocs out,
      mapOption (fun p =>
          assign_problems ((fun _ _ (l : List String) => l) p.1) p.2 2)
        ([["p", "q"]] : List (List String)).enum = some allocs ∧
      combine (fun _ _ (l : List String) => l) [["p", "q"]] 2 "" = some out ∧
      out.length = 2 ∧
      (∀ row ∈ out, row.length = ([["p", "q"]] : List (List String)).length) ∧
      ∀ i, i < 2 → out.getD i [] = allocs.map (fun l => l.getD i "")) :=
  ⟨by decide,
    combine_output_shape (fun _ _ l => l) [["p", "q"]] 2 "" (by decide)
      (by decide) (fun _ _ _ => List.Perm.refl _)⟩

/-- General form of the row-assembly comprehension, for an arbitrary
running `enumerate` start index: it succeeds as long as the indices stay
in range, producing one row per student in input order. -/
lemma assemble_spec [Inhabited σ] (tuples : List (List γ)) :
    ∀ (students : List σ) (start : Nat), start + students.length ≤ tuples.length →
      assemble start students tuples =
        some ((List.range students.length).map
          (fun j => (start + j + 1, students.getD j default, tuples.getD (start + j) []))) := by
  intro students
  induction students with
  | nil =>
    intro start _
    simp [assemble]
  | cons s ss ih =>
    intro start h
    have hlt : start < tuples.length := by
      simp only [List.length_cons] at h
      omega
    have hget : tuples.get? start = some (tuples.getD start []) := by
      simp [List.get?_eq_getElem?, List.getD_eq_getElem?_getD, List.getElem?_eq_getElem hlt]
    rw [assemble, hget, ih (start + 1) (by simp only [List.length_cons] at h; omega)]
    simp only [Option.map_some', Option.some.injEq, List.length_cons,
      List.range_succ_eq_map, List.map_cons, List.map_map, List.cons.injEq,
      List.getD_cons_zero, Nat.add_zero]
    refine ⟨trivial, ?_⟩
    apply List.map_congr_left
    intro j hj
    have h1 : start + (j + 1) = start + 1 + j := by omega
    simp only [Function.comp_apply, List.getD_cons_succ, h1]

/-- C6: when the tuple list matches the student list in length, the
row-assembly step produces one row per student, the row at 0-based index
`i` being `(i + 1, students[i], tuples[i])`: sequence numbers are the
contiguous integers from 1 and row order is student input order. -/
theorem assemble_rows [Inhabited σ] (students : List σ) (tuples : List (List γ))
    (h : tuples.length = students.length) :
    assemble 0 students tuples =
      some ((List.range students.length).map
        (fun i => (i + 1, students.getD i default, tuples.getD i []))) ∧
    ((List.range students.length).map
      (fun i => (i + 1, students.getD i default, tuples.getD i []))).length
      = students.length := by
  constructor
  · have hs := assemble_spec tuples students 0 (by omega)
    simpa using hs
  · simp

/-- Witness for C6 on the specification example: group A with students
`["X", "Y"]` and tuples `[["p2"], ["p1"]]`. -/
theorem assemble_rows_witness :
    (([["p2"], ["p1"]] : List (List String)).length
        = (["X", "Y"] : List String).length) ∧
    (assemble 0 (["X", "Y"] : List String) ([["p2"], ["p1"]] : List (List String)) =
        some ((List.range (["X", "Y"] : List String).length).map
          (fun i => (i + 1, (["X", "Y"] : List String).getD i default,
            ([["p2"], ["p1"]] : List (List String)).getD i []))) ∧
      ((List.range (["X", "Y"] : List String).length).map
        (fun i => (i + 1, (["X", "Y"] : List String).getD i default,
          ([["p2"], ["p1"]] : List (List String)).getD i []))).length
        = (["X", "Y"] : List String).length) :=
  ⟨by decide, assemble_rows ["X", "Y"] [["p2"], ["p1"]] (by decide)⟩

/-- Read the list object stored in heap cell `r` (Python variables
holding lists are references into this heap). -/
def hread (h : List (List α)) (r : Nat) : List α := h.getD r []

/-- The loop of `assign_problems` with the Python list mutations made
explicit: for each block index, `p = problems.copy()` allocates a fresh
cell holding the contents of cell `pr`, `shuffle(p)` overwrites that
fresh cell with a permutation of its contents, and the cell's contents
are appended to the accumulator. -/
def run_blocks (perms : Nat → List α → List α) :
    List Nat → Nat → List α → List (List α) → List α × List (List α)
  | [], _, acc, h => (acc, h)
  | i :: rest, pr, acc, h =>
    let h1 := h ++ [hread h pr]
    let h2 := h1.set h.length (perms i (hread h1 h.length))
    run_blocks perms rest pr (acc ++ hread h2 h.length) h2

/-- `assign_problems` over the explicit heap: cell `pr` holds the
`problems` argument; the result is the returned list and the final
heap. -/
def assign_problems_st (perms : Nat → List α → List α) (h : List (List α))
    (pr : Nat) (students_n : Nat) : Option (List α × List (List α)) :=
  if (hread h pr).length = 0 then none
  else
    let r := run_blocks perms
      (List.range ((students_n + (hread h pr).length - 1) / (hread h pr).length))
      pr [] h
    some (r.1.take students_n, r.2)

/-- Unfolding of one `run_blocks` iteration. -/
lemma run_blocks_cons (perms : Nat → List α → List α) (i : Nat) (rest : List Nat)
    (pr : Nat) (acc : List α) (h : List (List α)) :
    run_blocks perms (i :: rest) pr acc h =
      run_blocks perms rest pr
        (acc ++ hread ((h ++ [hread h pr]).set h.length
          (perms i (hread (h ++ [hread h pr]) h.length))) h.length)
        ((h ++ [hread h pr]).set h.length
          (perms i (hread (h ++ [hread h pr]) h.length))) := rfl

/-- The loop never writes to a pre-existing cell: every write targets the
freshly allocated copy, so any cell of the initial heap — in particular
the `problems` cell — is unchanged, and the heap only grows. -/
lemma run_blocks_frame (perms : Nat → List α → List α) :
    ∀ (idxs : List Nat) (pr : Nat) (acc : List α) (h : List (List α)),
      pr < h.length →
      hread (run_blocks perms idxs pr acc h).2 pr = hread h pr ∧
      h.length ≤ (run_blocks perms idxs pr acc h).2.length := by
  intro idxs
  induction idxs with
  | nil =>
    intro pr acc h hpr
    exact ⟨rfl, Nat.le_refl _⟩
  | cons i rest ih =>
    intro pr acc h hpr
    rw [run_blocks_cons]
    set h2 := (h ++ [hread h pr]).set h.length
      (perms i (hread (h ++ [hread h pr]) h.length)) with hh2
    have hlen2 : h2.length = h.length + 1 := by
      rw [hh2, List.length_set, List.length_append]
      rfl
    have hpr2 : hread h2 pr = hread h pr := by
      simp only [hread, List.getD_eq_getElem?_getD]
      rw [hh2, List.getElem?_set_ne (by omega), List.getElem?_append_left hpr]
    rcases ih pr (acc ++ hread h2 h.length) h2 (by omega) with ⟨ha, hb⟩
    rw [ha, hpr2]
    exact ⟨rfl, by omega⟩

/-- C10: `assign_problems` leaves its `problems` argument unchanged:
whatever the heap, each block shuffles a fresh copy, so after the call
the cell holding `problems` has the same elements in the same order as
before. -/
theorem assign_problems_st_frame (perms : Nat → List α → List α)
    (h : List (List α)) (pr : Nat) (students_n : Nat) (hpr : pr < h.length) :
    ∀ out h2, assign_problems_st perms h pr students_n = some (out, h2) →
      hread h2 pr = hread h pr := by
  intro out h2 hcall
  rw [assign_problems_st] at hcall
  by_cases hz : (hread h pr).length = 0
  · rw [if_pos hz] at hcall
    exact absurd hcall (by simp)
  · rw [if_neg hz] at hcall
    have h3 := (Option.some.inj hcall)
    have h4 : h2 = (run_blocks perms
        (List.range ((students_n + (hread h pr).length - 1) / (hread h pr).length))
        pr [] h).2 := (congrArg Prod.snd h3).symm
    rw [h4]
    exact (run_blocks_frame perms _ pr [] h hpr).1

/-- Witness for C10: heap with a single cell `[1, 2]`, three students,
reversal as the injected shuffle.  The call succeeds (returning
`[2, 1, 2]` and a grown heap) and the `problems` cell still holds
`[1, 2]`. -/
theorem assign_problems_st_frame_witness :
    0 < ([[1, 2]] : List (List Nat)).length ∧
    hread ([[1, 2], [2, 1], [2, 1]] : List (List Nat)) 0 = hread [[1, 2]] 0 :=
  ⟨by decide,
    assign_problems_st_frame (fun _ l => l.reverse) [[1, 2]] 0 3 (by decide)
      [2, 1, 2] [[1, 2], [2, 1], [2, 1]] (by rfl)⟩

end HwGen
